import Mathlib

/-!
Verification development for the TripSecretary migration scripts:
`scripts/migrate_app_js_to_ts.py`, `scripts/remove_js_import_extensions.py`,
and `scripts/refactor_phase5.py`.

Python strings are modelled as Lean `String` / `List Char`; the Python `re`
patterns used by the scripts are modelled by a small backtracking matcher
(`matchRE`) whose candidate ordering mirrors Python's leftmost, priority-ordered
backtracking for the constructs those patterns use (literals, character
classes, greedy/lazy quantified classes, alternation, optional groups).
-/

/-! ### Python string primitives -/

/-- The ASCII whitespace characters matched by Python's `str.strip`/`lstrip`
and by the regex class `\s` (tab, newline, vertical tab, form feed, carriage
return, space).  The scripts only process ASCII-whitespace source text, so the
extra Unicode whitespace accepted by Python is not modelled. -/
def isPyWs (c : Char) : Bool :=
  c == ' ' || c == '\t' || c == '\n' || c == '\r' ||
    c == Char.ofNat 11 || c == Char.ofNat 12

/-- `isPre p l`: `p` is a leading segment of `l` (Python `str.startswith`). -/
def isPre : List Char → List Char → Bool
  | [], _ => true
  | _ :: _, [] => false
  | a :: as, b :: bs => a == b && isPre as bs

/-- `hasSubL pat l`: `pat` occurs contiguously inside `l`
(Python's `pat in s` substring test). -/
def hasSubL (pat : List Char) : List Char → Bool
  | [] => pat.isEmpty
  | c :: rest => isPre pat (c :: rest) || hasSubL pat rest

/-- Python `pat in s` on strings. -/
def strContains (s pat : String) : Bool :=
  hasSubL pat.toList s.toList

/-- Python `str.lstrip()`. -/
def pyLstrip (s : String) : String :=
  String.mk (s.toList.dropWhile isPyWs)

/-- Python `str.strip()`. -/
def pyStrip (s : String) : String :=
  String.mk (((s.toList.dropWhile isPyWs).reverse.dropWhile isPyWs).reverse)

/-! ### A small regex matcher

Just enough of Python `re` to express the eight patterns appearing in the
scripts.  Quantifiers only ever apply to single-character classes in those
patterns, which keeps the enumeration of candidate matches finite. -/

/-- An inclusive character range, e.g. `A`–`Z`. -/
structure CSpan where
  lo : Char
  hi : Char
deriving Repr, DecidableEq

/-- Character-class membership over a union of ranges. -/
def inSpans (spans : List CSpan) (c : Char) : Bool :=
  spans.any (fun sp => decide (sp.lo ≤ c) && decide (c ≤ sp.hi))

/-- One-character class test; `neg = true` is a complemented class `[^…]`. -/
def clsHit (neg : Bool) (spans : List CSpan) (c : Char) : Bool :=
  if neg then !(inSpans spans c) else inSpans spans c

/-- Regex abstract syntax, restricted to the constructs used by the scripts'
patterns.  `rep` is a quantified single-character class: `atLeastOne` selects
`+` versus `*`, `greedy` selects greedy versus lazy. -/
inductive RE where
  | lit (s : List Char)
  | cls (neg : Bool) (spans : List CSpan)
  | rep (neg : Bool) (spans : List CSpan) (atLeastOne : Bool) (greedy : Bool)
  | seq (a b : RE)
  | alt (a b : RE)
  | opt (r : RE)
  | group (idx : Nat) (r : RE)
deriving Repr

/-- One candidate match: captured groups, the consumed text, and the input
remaining after the match. -/
structure MRes where
  caps : List (Nat × List Char)
  consumed : List Char
  rest : List Char
deriving Repr, DecidableEq

/-- Length of the maximal leading run of characters satisfying `p`. -/
def countRun (p : Char → Bool) : List Char → Nat
  | [] => 0
  | c :: r => if p c then countRun p r + 1 else 0

/-- Candidate repetition counts for a quantified class, in the order a
backtracking engine tries them: greedy counts descend from the maximal run,
lazy counts ascend from the minimum. -/
def repCounts (atLeastOne greedy : Bool) (maxRun : Nat) : List Nat :=
  let lo := if atLeastOne then 1 else 0
  if maxRun < lo then []
  else if greedy then (List.range (maxRun + 1 - lo)).map (fun k => maxRun - k)
  else (List.range (maxRun + 1 - lo)).map (fun k => lo + k)

/-- All candidate matches of `r` at the head of the input, in backtracking
priority order (the head of the list is the match Python's engine reports). -/
def matchRE : RE → List Char → List MRes
  | .lit s, inp =>
    if isPre s inp then [⟨[], s, inp.drop s.length⟩] else []
  | .cls neg spans, inp =>
    match inp with
    | [] => []
    | c :: r => if clsHit neg spans c then [⟨[], [c], r⟩] else []
  | .rep neg spans a g, inp =>
    (repCounts a g (countRun (clsHit neg spans) inp)).map
      (fun n => ⟨[], inp.take n, inp.drop n⟩)
  | .seq a b, inp =>
    (matchRE a inp).flatMap (fun ma =>
      (matchRE b ma.rest).map (fun mb =>
        ⟨ma.caps ++ mb.caps, ma.consumed ++ mb.consumed, mb.rest⟩))
  | .alt a b, inp => matchRE a inp ++ matchRE b inp
  | .opt r, inp => matchRE r inp ++ [⟨[], [], inp⟩]
  | .group i r, inp =>
    (matchRE r inp).map (fun m => ⟨(i, m.consumed) :: m.caps, m.consumed, m.rest⟩)

/-- Leftmost match: the text before the match and the first (highest-priority)
match at the leftmost position where any match exists, as in `re.search`. -/
def findMatch (p : RE) : List Char → Option (List Char × MRes)
  | [] =>
    match matchRE p [] with
    | m :: _ => some ([], m)
    | [] => none
  | c :: r =>
    match matchRE p (c :: r) with
    | m :: _ => some ([], m)
    | [] => (findMatch p r).map (fun pr => (c :: pr.1, pr.2))

/-- Captured text of group `i` (empty if the group is absent). -/
def getCap (caps : List (Nat × List Char)) (i : Nat) : List Char :=
  match caps.find? (fun p => p.1 == i) with
  | some p => p.2
  | none => []

/-- The scripts' `strip_suffix` replacement: groups 1, 2 and 4 of the match
(everything except the matched `.js`). -/
def stripRepl (caps : List (Nat × List Char)) : List Char :=
  getCap caps 1 ++ getCap caps 2 ++ getCap caps 4

/-- Global substitution (`re.subn`) with the `strip_suffix` replacement:
repeatedly rewrite the leftmost match, resuming after it.  The fuel is only a
termination device: every pattern passed to it begins with a nonempty literal,
so each rewrite consumes at least one character and `length + 1` steps always
suffice. -/
def subnAux (p : RE) : Nat → List Char → List Char × Nat
  | 0, s => (s, 0)
  | fuel + 1, s =>
    match findMatch p s with
    | none => (s, 0)
    | some (pre, m) =>
      let r := subnAux p fuel m.rest
      (pre ++ stripRepl m.caps ++ r.1, r.2 + 1)

/-- `pattern.subn(strip_suffix, s)`: the rewritten text and the number of
substitutions made. -/
def subn (p : RE) (s : List Char) : List Char × Nat :=
  subnAux p (s.length + 1) s

/-- `re.search` as a Boolean (used by the JSX sniffing patterns). -/
def reSearch (p : RE) (s : String) : Bool :=
  (findMatch p s.toList).isSome

/-! ### `scripts/remove_js_import_extensions.py` -/

/-- The class `\s` as ranges (tab through carriage return, and space). -/
def wsSp : List CSpan := [⟨Char.ofNat 9, Char.ofNat 13⟩, ⟨' ', ' '⟩]

/-- The single-quote character (named to avoid Mathlib.sq). -/
def sqCh : Char := Char.ofNat 39

/-- The class `['\"]`. -/
def qSp : List CSpan := [⟨sqCh, sqCh⟩, ⟨'"', '"'⟩]

/-- The class complemented in `[^'\"?]`. -/
def pathSp : List CSpan := [⟨sqCh, sqCh⟩, ⟨'"', '"'⟩, ⟨'?', '?'⟩]

/-- The class complemented in `[^;]`. -/
def semiSp : List CSpan := [⟨';', ';'⟩]

/-- `\s+` (greedy). -/
def wsPlus : RE := .rep false wsSp true true

/-- `\s*` (greedy). -/
def wsStar : RE := .rep false wsSp false true

/-- `['\"]`. -/
def quoteRE : RE := .cls false qSp

/-- `[^'\"?]+?` (lazy). -/
def pathLazy : RE := .rep true pathSp true false

/-- Sequence a list of regexes. -/
def reSeqL : List RE → RE
  | [] => .lit []
  | [r] => r
  | r :: rest => .seq r (reSeqL rest)

/-- `(from\s+['\"])([^'\"?]+?)(\.js)(['\"])`. -/
def IMPORT_RE : RE :=
  reSeqL [.group 1 (reSeqL [.lit "from".toList, wsPlus, quoteRE]),
          .group 2 pathLazy, .group 3 (.lit ".js".toList), .group 4 quoteRE]

/-- `(import\s+[^;]+?\s+from\s+['\"])([^'\"?]+?)(\.js)(['\"])`. -/
def EXPORT_RE : RE :=
  reSeqL [.group 1 (reSeqL [.lit "import".toList, wsPlus,
            .rep true semiSp true false, wsPlus, .lit "from".toList, wsPlus, quoteRE]),
          .group 2 pathLazy, .group 3 (.lit ".js".toList), .group 4 quoteRE]

/-- `(require\(\s*['\"])([^'\"?]+?)(\.js)(['\"]\s*\))`. -/
def REQUIRE_RE : RE :=
  reSeqL [.group 1 (reSeqL [.lit "require(".toList, wsStar, quoteRE]),
          .group 2 pathLazy, .group 3 (.lit ".js".toList),
          .group 4 (reSeqL [quoteRE, wsStar, .lit ")".toList])]

/-- `(import\(\s*['\"])([^'\"?]+?)(\.js)(['\"]\s*\))`. -/
def DYNAMIC_IMPORT_RE : RE :=
  reSeqL [.group 1 (reSeqL [.lit "import(".toList, wsStar, quoteRE]),
          .group 2 pathLazy, .group 3 (.lit ".js".toList),
          .group 4 (reSeqL [quoteRE, wsStar, .lit ")".toList])]

/-- One iteration of `process_file`'s pattern loop: apply one pattern's
substitution, recording whether any substitution occurred. -/
def applyPat (acc : List Char × Bool) (p : RE) : List Char × Bool :=
  let sr := subn p acc.1
  if 0 < sr.2 then (sr.1, true) else acc

/-- The text transformation of `process_file` (fast-path suffix pre-check,
then the four patterns in source order), returning the final text and whether
the file was updated. -/
def processText (text : String) : String × Bool :=
  if !(hasSubL ".js'".toList text.toList) && !(hasSubL ".js\"".toList text.toList) then
    (text, false)
  else
    let r := [IMPORT_RE, EXPORT_RE, REQUIRE_RE, DYNAMIC_IMPORT_RE].foldl
      applyPat (text.toList, false)
    (String.mk r.1, r.2)

/-- The combined effect of all four patterns applied in source order
(without the fast-path pre-check). -/
def fourPass (t : List Char) : List Char :=
  ([IMPORT_RE, EXPORT_RE, REQUIRE_RE, DYNAMIC_IMPORT_RE].foldl applyPat (t, false)).1

/-- The effect of the generic-`from`, `require` and dynamic-`import` patterns
alone (the specific `import … from` pattern omitted). -/
def threePass (t : List Char) : List Char :=
  ([IMPORT_RE, REQUIRE_RE, DYNAMIC_IMPORT_RE].foldl applyPat (t, false)).1


/-! ### `scripts/migrate_app_js_to_ts.py` -/

/-- `[A-Za-z]`. -/
def alphaSp : List CSpan := [⟨'A', 'Z'⟩, ⟨'a', 'z'⟩]

/-- `[A-Za-z0-9]`. -/
def alnumSp : List CSpan := [⟨'A', 'Z'⟩, ⟨'a', 'z'⟩, ⟨'0', '9'⟩]

/-- The class complemented in `[^>]`. -/
def gtSp : List CSpan := [⟨'>', '>'⟩]

/-- `</\s*[A-Za-z][A-Za-z0-9]*(\s|>)` — closing tags, e.g. `</View>`. -/
def JSX_CLOSING : RE :=
  reSeqL [.lit "</".toList, wsStar, .cls false alphaSp, .rep false alnumSp false true,
          .group 1 (.alt (.cls false wsSp) (.lit ">".toList))]

/-- `<\s*[A-Za-z][A-Za-z0-9]*(\s[^>]*?)?/>` — self-closing tags, e.g. `<Text />`. -/
def JSX_SELF_CLOSING : RE :=
  reSeqL [.lit "<".toList, wsStar, .cls false alphaSp, .rep false alnumSp false true,
          .opt (.group 1 (.seq (.cls false wsSp) (.rep true gtSp false false))),
          .lit "/>".toList]

/-- `<\s*[A-Za-z][A-Za-z0-9]*\s[^>]*>` — opening tags with props, e.g. `<Item foo="bar">`. -/
def JSX_OPENING : RE :=
  reSeqL [.lit "<".toList, wsStar, .cls false alphaSp, .rep false alnumSp false true,
          .cls false wsSp, .rep true gtSp false true, .lit ">".toList]

/-- `contains_jsx`: any of the three JSX signature patterns matches. -/
def contains_jsx (text : String) : Bool :=
  [JSX_CLOSING, JSX_SELF_CLOSING, JSX_OPENING].any (fun p => reSearch p text)

/-- `FORCE_TSX_SEGMENTS`. -/
def FORCE_TSX_SEGMENTS : List String := ["components", "screens", "templates"]

/-- `should_force_tsx`: some segment of the path (relative to the app root,
filename included, as in `path.relative_to(APP_ROOT).parts`) is component-like. -/
def should_force_tsx (segs : List String) : Bool :=
  segs.any (fun s => FORCE_TSX_SEGMENTS.contains s)

/-- `target_extension`. -/
def target_extension (segs : List String) (text : String) : String :=
  if should_force_tsx segs then ".tsx"
  else if contains_jsx text then ".tsx"
  else ".ts"

/-- `TS_NOCHECK_BANNER`. -/
def TS_NOCHECK_BANNER : String := "// @ts-nocheck\n\n"

/-- The test `ensure_banner` performs: the content, after `lstrip`, starts with
the line- or block-comment form of the marker. -/
def hasMarker (text : String) : Bool :=
  let stripped := text.toList.dropWhile isPyWs
  isPre "// @ts-nocheck".toList stripped || isPre "/* @ts-nocheck".toList stripped

/-- `ensure_banner`. -/
def ensure_banner (text : String) : String :=
  if hasMarker text then text else TS_NOCHECK_BANNER ++ text

/-- `Path.with_suffix` for the names this script feeds it: replace the part of
the final name from its last dot on by `suffix`; a name with no suffix in
pathlib's sense (no dot, or only a leading dot) gets `suffix` appended. -/
def withSuffix (name suffix : String) : String :=
  match name.toList.reverse.dropWhile (fun c => c != '.') with
  | '.' :: rest =>
    if rest.isEmpty then name ++ suffix else String.mk rest.reverse ++ suffix
  | _ => name ++ suffix

/-- A file path, as the list of its segments relative to the app root
(the final segment is the file name). -/
abbrev FPath := List String

/-- The file system visible to `convert_file`: a list of (path, content)
entries. -/
abbrev FS := List (FPath × String)

/-- `read_text` / `exists()`: the content at a path, if present. -/
def fsRead (fs : FS) (p : FPath) : Option String :=
  (fs.find? (fun e => e.1 == p)).map (fun e => e.2)

/-- `write_text`: create or overwrite the file at `p`. -/
def fsWrite (fs : FS) (p : FPath) (t : String) : FS :=
  (p, t) :: fs.filter (fun e => e.1 != p)

/-- `unlink`: remove the file at `p`. -/
def fsDelete (fs : FS) (p : FPath) : FS :=
  fs.filter (fun e => e.1 != p)

/-- Per-file outcome of `convert_file`: a performed (or dry-run) conversion,
a non-destructive skip because the target exists, or a failed read (the
exception path of `read_text`, fatal to that file only). -/
inductive ConvOutcome where
  | converted (oldp newp : FPath)
  | skippedExists
  | readFail
deriving Repr, DecidableEq

/-- `convert_file`: read the source, compute the target path from
`target_extension`, skip non-destructively if the target exists, otherwise
write the banner-prefixed content at the target and unlink the source. -/
def convert_file (fs : FS) (p : FPath) (dryRun : Bool) : FS × ConvOutcome :=
  match fsRead fs p with
  | none => (fs, .readFail)
  | some text =>
    let newPath := p.dropLast ++ [withSuffix (p.getLastD "") (target_extension p text)]
    match fsRead fs newPath with
    | some _ => (fs, .skippedExists)
    | none =>
      if dryRun then (fs, .converted p newPath)
      else (fsDelete (fsWrite fs newPath (ensure_banner text)) p, .converted p newPath)

/-! ### `scripts/refactor_phase5.py`

The scanning loops below iterate over line indices; each is written as a
structural recursion over the suffix of the line list starting at the current
index (the extra list argument always equals `lines.drop j`), which keeps
every definition kernel-computable. -/

/-- `for i in range(len(lines)): if marker in lines[i]: … break` — walk the
suffix `rest` of the lines starting at index `j`, returning the first index
whose line contains `marker`. -/
def findStartAux (marker : String) : List String → Nat → Option Nat
  | [], _ => none
  | l :: rest, j =>
    if strContains l marker then some j else findStartAux marker rest (j + 1)

/-- First line index whose line contains `marker`. -/
def findStart (lines : List String) (marker : String) : Option Nat :=
  findStartAux marker lines 0

/-- First index at or after `j` whose stripped line equals `lit` (the start
test of the `handleFieldBlur` scan). -/
def findStartStripEqAux (lit : String) : List String → Nat → Option Nat
  | [], _ => none
  | l :: rest, j =>
    if pyStrip l == lit then some j else findStartStripEqAux lit rest (j + 1)

/-- First line whose stripped text equals `lit`. -/
def findStartStripEq (lines : List String) (lit : String) : Option Nat :=
  findStartStripEqAux lit lines 0

/-- First line whose stripped text starts with `lit` (the start test of the
`saveDataToSecureStorage` wrapper scan). -/
def findStartStripSwAux (lit : String) : List String → Nat → Option Nat
  | [], _ => none
  | l :: rest, j =>
    if isPre lit.toList (pyStrip l).toList then some j
    else findStartStripSwAux lit rest (j + 1)

/-- First line whose stripped text starts with `lit`. -/
def findStartStripSw (lines : List String) (lit : String) : Option Nat :=
  findStartStripSwAux lit lines 0

/-- `''.join(lines[i:j])`. -/
def joinRange (lines : List String) (i j : Nat) : String :=
  String.join ((lines.drop i).take (j - i))

/-- `for j in range(i+1, len(lines)): if endLit in lines[j]` — first index at
or after `j` whose line contains `endLit`. -/
def scanContainsAux (endLit : String) : List String → Nat → Option Nat
  | [], _ => none
  | l :: rest, j =>
    if strContains l endLit then some j else scanContainsAux endLit rest (j + 1)

/-- The guarded end-condition test of the scans with a content guard, at line
`j` for a region started at line `i`: the line contains `endLit` and the guard
occurs in `''.join(lines[i:j])` (the region text up to but excluding line `j`). -/
def guardCondAt (lines : List String) (i : Nat) (endLit guard : String) (j : Nat) : Bool :=
  strContains (lines.getD j "") endLit && strContains (joinRange lines i j) guard

/-- First index at or after `j` satisfying the guarded end condition; `rest`
is the suffix of `lines` from `j` on. -/
def guardScanAux (lines : List String) (i : Nat) (endLit guard : String) :
    List String → Nat → Option Nat
  | [], _ => none
  | l :: rest, j =>
    if strContains l endLit && strContains (joinRange lines i j) guard then some j
    else guardScanAux lines i endLit guard rest (j + 1)

/-- The guarded end scan: first `j > i` whose line contains `endLit` with the
guard occurring in the joined text of lines `i` to `j-1`. -/
def guardScan (lines : List String) (i : Nat) (endLit guard : String) : Option Nat :=
  guardScanAux lines i endLit guard (lines.drop (i + 1)) (i + 1)

/-- Stripped-equality variant (the `performSaveOperation` scan):
`lines[j].strip() == endLit and guard in ''.join(lines[i:j])`. -/
def guardScanStripEqAux (lines : List String) (i : Nat) (endLit guard : String) :
    List String → Nat → Option Nat
  | [], _ => none
  | l :: rest, j =>
    if pyStrip l == endLit && strContains (joinRange lines i j) guard then some j
    else guardScanStripEqAux lines i endLit guard rest (j + 1)

/-- Two-literal variant (the `handleUserInteraction` scan): both literals must
occur in line `j` itself. -/
def scanContains2Aux (lit1 lit2 : String) : List String → Nat → Option Nat
  | [], _ => none
  | l :: rest, j =>
    if strContains l lit1 && strContains l lit2 then some j
    else scanContains2Aux lit1 lit2 rest (j + 1)

/-- Number of `{` minus number of `}` on a line
(`lines[j].count('{') - lines[j].count('}')`). -/
def braceDelta (s : String) : Int :=
  (s.toList.count (Char.ofNat 123) : Int) - (s.toList.count (Char.ofNat 125) : Int)

/-- The brace-counting loop of the `handleFieldBlur` scan: `c` is the running
count before line `j`; the scan stops at the first line, strictly after the
start line `i`, after which the count is zero. -/
def braceScanAux (i : Nat) : List String → Int → Nat → Option Nat
  | [], _, _ => none
  | l :: rest, c, j =>
    if c + braceDelta l = 0 && i < j then some j
    else braceScanAux i rest (c + braceDelta l) (j + 1)

/-- Balanced-delimiter end scan, started at line `i` with count 0
(`brace_count == 0 and j > i`). -/
def braceScan (lines : List String) (i : Nat) : Option Nat :=
  braceScanAux i (lines.drop i) 0 i

/-- Running brace count over lines `i..j-1` (exclusive of line `j`). -/
def braceSumBelow (lines : List String) (i j : Nat) : Int :=
  (((lines.drop i).take (j - i)).map braceDelta).sum

/-- Running brace count through line `j` inclusive for a region started at
line `i`: the sum of `braceDelta` over lines `i..j`. -/
def braceSumTo (lines : List String) (i j : Nat) : Int :=
  (((lines.drop i).take (j + 1 - i)).map braceDelta).sum

/-- A simple marker/contains region: first marker line `i`, then first
`j > i` containing `endLit`, removed as `[i, j+1)`. -/
def regionContains (lines : List String) (marker endLit : String) : Option (Nat × Nat) :=
  (findStart lines marker).bind fun i =>
    (scanContainsAux endLit (lines.drop (i + 1)) (i + 1)).map fun j => (i, j + 1)

/-- A marker/guarded-end region. -/
def regionGuarded (lines : List String) (marker endLit guard : String) :
    Option (Nat × Nat) :=
  (findStart lines marker).bind fun i =>
    (guardScan lines i endLit guard).map fun j => (i, j + 1)

/-- The `debouncedSaveData` region: guarded end, then one extra blank line is
consumed when the line after the end is blank. -/
def regionDebounced (lines : List String) : Option (Nat × Nat) :=
  (findStart lines "// Create debounced save function with error handling").bind fun i =>
    (guardScan lines i "  );" "debouncedSave").map fun j =>
      if j + 1 < lines.length && pyStrip (lines.getD (j + 1) "") == "" then (i, j + 2)
      else (i, j + 1)

/-- The `handleUserInteraction` region: both end literals on the end line. -/
def regionUserInteraction (lines : List String) : Option (Nat × Nat) :=
  (findStart lines "// Handle user interaction with tracking-enabled inputs").bind fun i =>
    (scanContains2Aux "debouncedSaveData]);" "userInteractionTracker"
        (lines.drop (i + 1)) (i + 1)).map fun j => (i, j + 1)

/-- The `handleFieldBlur` region: exact stripped start line, balanced-brace end. -/
def regionFieldBlur (lines : List String) : Option (Nat × Nat) :=
  (findStartStripEq lines
      "const handleFieldBlur = async (fieldName, fieldValue) => \x7b").bind fun i =>
    (braceScan lines i).map fun j => (i, j + 1)

/-- The `performSaveOperation` region: stripped-equality end with guard. -/
def regionPerformSave (lines : List String) : Option (Nat × Nat) :=
  (findStart lines "// Helper method to perform the actual save operation").bind fun i =>
    (guardScanStripEqAux lines i "\x7d;" "performSaveOperation"
        (lines.drop (i + 1)) (i + 1)).map fun j => (i, j + 1)

/-- The wrapper `saveDataToSecureStorage` region: stripped-startswith marker,
guarded end. -/
def regionWrapper (lines : List String) : Option (Nat × Nat) :=
  (findStartStripSw lines "// Save all data to secure storage").bind fun i =>
    (guardScan lines i "  \x7d;" "saveDataToSecureStorageWithOverride()").map
      fun j => (i, j + 1)

/-- All thirteen region scans of the script, in source order; scans whose
start or end is not found contribute nothing. -/
def phase5Ranges (lines : List String) : List (Nat × Nat) :=
  List.filterMap id
    [regionContains lines "// Add focus listener to reload data when returning to screen"
        "navigation, passport, refreshFundItems]);",
     regionGuarded lines "// Add blur listener to save data when leaving the screen"
        "\x7d, [navigation]);" "blur",
     regionGuarded lines "// Cleanup effect (equivalent to componentWillUnmount)"
        "\x7d, []);" "unmount",
     regionGuarded lines "// Monitor save status changes" "\x7d, []);" "getSaveState",
     regionContains lines "// Initialize entry_info when screen loads"
        "initializeEntryInfo]);",
     regionContains lines "// Session state management functions"
        "isLoading, scrollPosition]);",
     regionGuarded lines "// Debug function to clear user data" "  \x7d;" "clearUserData",
     regionDebounced lines,
     regionUserInteraction lines,
     regionFieldBlur lines,
     regionPerformSave lines,
     regionGuarded lines "// Enhanced debug logging for personal info saving" "\x7d;"
        "saveDataToSecureStorageWithOverride",
     regionWrapper lines]

/-- Python's `list.sort()` order on `(start, end)` pairs: lexicographic. -/
def rangeLe (a b : Nat × Nat) : Bool :=
  decide (a.1 < b.1) || (a.1 == b.1 && decide (a.2 ≤ b.2))

/-- Insert into a `rangeLe`-sorted list. -/
def insertRange (x : Nat × Nat) : List (Nat × Nat) → List (Nat × Nat)
  | [] => [x]
  | y :: rest => if rangeLe x y then x :: y :: rest else y :: insertRange x rest

/-- `remove_ranges.sort()`: since `rangeLe` is a total order (antisymmetric on
pairs), any sort produces the same list Python's stable sort does. -/
def sortRanges : List (Nat × Nat) → List (Nat × Nat)
  | [] => []
  | x :: rest => insertRange x (sortRanges rest)

/-- Line `i` is covered by some `[start, end)` interval in the list. -/
def covered (ranges : List (Nat × Nat)) (i : Nat) : Bool :=
  ranges.any (fun r => decide (r.1 ≤ i) && decide (i < r.2))

/-- The range-application loop of the script: walk the line indices from `i`;
at a line covered by some interval, jump to the first covering interval's end;
otherwise retain the line and advance by one.  The fuel argument only bounds
the number of loop steps to keep the recursion structural: each step strictly
increases `i` (a covering interval's end is strictly beyond `i`), so
`lines.length` steps always suffice. -/
def exciseAux (lines : List String) (ranges : List (Nat × Nat)) :
    Nat → Nat → List String
  | 0, _ => []
  | fuel + 1, i =>
    if i < lines.length then
      match ranges.find? (fun r => decide (r.1 ≤ i) && decide (i < r.2)) with
      | some r => exciseAux lines ranges fuel r.2
      | none => lines.getD i "" :: exciseAux lines ranges fuel (i + 1)
    else []

/-- Sort the collected ranges, then run the application loop from line 0. -/
def applyRanges (lines : List String) (ranges : List (Nat × Nat)) : List String :=
  exciseAux lines (sortRanges ranges) lines.length 0

/-- The retained line sequence produced by the script. -/
def phase5Output (lines : List String) : List String :=
  applyRanges lines (phase5Ranges lines)

/-- Python `content.split('\n')`: `acc` is the current (reversed) partial line. -/
def splitNlAux : List Char → List Char → List String
  | [], acc => [String.mk acc.reverse]
  | c :: rest, acc =>
    if c = '\n' then String.mk acc.reverse :: splitNlAux rest []
    else splitNlAux rest (c :: acc)

/-- `content.split('\n')`. -/
def pySplitNl (s : String) : List String :=
  splitNlAux s.toList []

/-- `'\n'.join(new_lines)`. -/
def joinNl : List String → String
  | [] => ""
  | [l] => l
  | l :: rest => l ++ "\n" ++ joinNl rest

/-- The whole text transformation of the script: split on newlines, locate and
excise the regions, join with newlines.  The script always writes this result;
it has no failure path for an unterminated region. -/
def phase5 (content : String) : String :=
  joinNl (phase5Output (pySplitNl content))

/-- A synthetic `handleFieldBlur` block with three levels of nested braces:
the outer closing brace is on line 6. -/
def nestedBlurLines : List String :=
  ["const handleFieldBlur = async (fieldName, fieldValue) => \x7b",
   " if (a) \x7b",
   "  f(() => \x7b",
   "  x",
   "  \x7d)",
   " \x7d",
   "\x7d",
   "after"]

/-- A regex contains no capture group (true of every group body in the four
rewriter patterns). -/
def groupFree : RE → Bool
  | .lit _ => true
  | .cls _ _ => true
  | .rep _ _ _ _ => true
  | .seq a b => groupFree a && groupFree b
  | .alt a b => groupFree a && groupFree b
  | .opt r => groupFree r
  | .group _ _ => false

/-- `ExactJsRemoval s t`: `t` is obtained from `s` by deleting some (possibly
zero) non-overlapping contiguous occurrences of `.js`, with every other
character preserved in order.  This is the shape of one substitution pass of
the Reference Rewriter: which occurrences may be deleted is pinned down
separately by the match-decomposition characterization (each deleted `.js` is
the terminal suffix of a matched reference, immediately before its closing
quote). -/
inductive ExactJsRemoval : List Char → List Char → Prop where
  | nil : ExactJsRemoval [] []
  | keep (c : Char) {s t : List Char} :
      ExactJsRemoval s t → ExactJsRemoval (c :: s) (c :: t)
  | dropJs {s t : List Char} :
      ExactJsRemoval s t → ExactJsRemoval ('.' :: 'j' :: 's' :: s) t

/-! ### Theorems -/

/-- Helper: a successful `isPre` check means the pattern is literally the
leading segment of the text. -/
theorem isPre_append_drop : ∀ {p l : List Char}, isPre p l = true →
    p ++ l.drop p.length = l := by
  intro p
  induction p with
  | nil => intro l _; simp
  | cons a as ih =>
    intro l h
    cases l with
    | nil => simp [isPre] at h
    | cons b bs =>
      simp only [isPre, Bool.and_eq_true, beq_iff_eq] at h
      obtain ⟨hab, hpre⟩ := h
      subst hab
      simpa using ih hpre

/-- Helper: destructing a match of a sequence into its two component
matches. -/
theorem matchRE_seq_mem {r1 r2 : RE} {inp : List Char} {m : MRes}
    (hm : m ∈ matchRE (.seq r1 r2) inp) :
    ∃ m1 m2, m1 ∈ matchRE r1 inp ∧ m2 ∈ matchRE r2 m1.rest ∧
      m.caps = m1.caps ++ m2.caps ∧ m.consumed = m1.consumed ++ m2.consumed ∧
      m.rest = m2.rest := by
  simp only [matchRE, List.mem_flatMap, List.mem_map] at hm
  obtain ⟨m1, h1, m2, h2, hm⟩ := hm
  exact ⟨m1, m2, h1, h2, by rw [← hm], by rw [← hm], by rw [← hm]⟩

/-- Helper: destructing a match of a capture group. -/
theorem matchRE_group_mem {i : Nat} {r : RE} {inp : List Char} {m : MRes}
    (hm : m ∈ matchRE (.group i r) inp) :
    ∃ m', m' ∈ matchRE r inp ∧
      m = ⟨(i, m'.consumed) :: m'.caps, m'.consumed, m'.rest⟩ := by
  simp only [matchRE, List.mem_map] at hm
  obtain ⟨m', h1, hm⟩ := hm
  exact ⟨m', h1, hm.symm⟩

/-- Helper: destructing a match of a single-character class. -/
theorem matchRE_cls_single {neg : Bool} {spans : List CSpan} {inp : List Char}
    {m : MRes} (hm : m ∈ matchRE (.cls neg spans) inp) :
    ∃ c r, inp = c :: r ∧ m = ⟨[], [c], r⟩ ∧ clsHit neg spans c = true := by
  cases inp with
  | nil => simp [matchRE] at hm
  | cons c r =>
    simp only [matchRE] at hm
    by_cases hc : clsHit neg spans c
    · rw [if_pos hc] at hm
      simp only [List.mem_singleton] at hm
      exact ⟨c, r, rfl, hm, hc⟩
    · rw [if_neg hc] at hm
      simp at hm

/-- Helper: the candidate counts of a quantified class are bounded by the
maximal run and respect the one-or-more minimum. -/
theorem repCounts_mem {a g : Bool} {maxRun n : Nat} (h : n ∈ repCounts a g maxRun) :
    (a = true → 1 ≤ n) ∧ n ≤ maxRun := by
  unfold repCounts at h
  cases a with
  | false =>
    refine ⟨fun hc => absurd hc (by simp), ?_⟩
    rw [if_neg (by simp : ¬(false = true)), if_neg (by omega : ¬maxRun < 0)] at h
    cases g with
    | false =>
      rw [if_neg (by simp : ¬(false = true))] at h
      simp only [List.mem_map, List.mem_range] at h
      obtain ⟨k, hk, hn⟩ := h
      omega
    | true =>
      rw [if_pos rfl] at h
      simp only [List.mem_map, List.mem_range] at h
      obtain ⟨k, hk, hn⟩ := h
      omega
  | true =>
    rw [if_pos rfl] at h
    by_cases hlt : maxRun < 1
    · rw [if_pos hlt] at h
      simp at h
    · rw [if_neg hlt] at h
      cases g with
      | false =>
        rw [if_neg (by simp : ¬(false = true))] at h
        simp only [List.mem_map, List.mem_range] at h
        obtain ⟨k, hk, hn⟩ := h
        exact ⟨fun _ => by omega, by omega⟩
      | true =>
        rw [if_pos rfl] at h
        simp only [List.mem_map, List.mem_range] at h
        obtain ⟨k, hk, hn⟩ := h
        exact ⟨fun _ => by omega, by omega⟩

/-- Helper: every character inside a run bounded by `countRun` satisfies the
class predicate. -/
theorem countRun_take {p : Char → Bool} : ∀ (inp : List Char) (n : Nat),
    n ≤ countRun p inp → ∀ c ∈ inp.take n, p c = true := by
  intro inp
  induction inp with
  | nil => intro n _ c hc; simp at hc
  | cons b r ih =>
    intro n hn c hc
    by_cases hb : p b
    · rw [show countRun p (b :: r) = countRun p r + 1 by simp [countRun, hb]] at hn
      cases n with
      | zero => simp at hc
      | succ k =>
        simp only [List.take_succ_cons, List.mem_cons] at hc
        rcases hc with hc | hc
        · subst hc; exact hb
        · exact ih k (by omega) c hc
    · rw [show countRun p (b :: r) = 0 by simp [countRun, hb]] at hn
      have : n = 0 := by omega
      subst this
      simp at hc

/-- Helper: destructing a match of a quantified class: no captures, the
consumed text is a leading run of class characters, nonempty when the
quantifier is one-or-more. -/
theorem matchRE_rep_mem {neg : Bool} {spans : List CSpan} {a g : Bool}
    {inp : List Char} {m : MRes} (hm : m ∈ matchRE (.rep neg spans a g) inp) :
    ∃ n, m = ⟨[], inp.take n, inp.drop n⟩ ∧ (a = true → 1 ≤ n) ∧
      n ≤ countRun (clsHit neg spans) inp ∧
      ∀ c ∈ m.consumed, clsHit neg spans c = true := by
  simp only [matchRE, List.mem_map] at hm
  obtain ⟨n, hn, hmn⟩ := hm
  obtain ⟨h1, h2⟩ := repCounts_mem hn
  refine ⟨n, hmn.symm, h1, h2, ?_⟩
  rw [← hmn]
  exact countRun_take inp n h2

/-- Helper: every match consumes a prefix of the input: consumed text plus
remaining text reassemble the input. -/
theorem matchRE_consumed_rest : ∀ (r : RE) (inp : List Char) (m : MRes),
    m ∈ matchRE r inp → m.consumed ++ m.rest = inp := by
  intro r
  induction r with
  | lit s =>
    intro inp m hm
    simp only [matchRE] at hm
    split at hm
    · simp only [List.mem_singleton] at hm
      subst hm
      exact isPre_append_drop (by assumption)
    · simp at hm
  | cls neg spans =>
    intro inp m hm
    obtain ⟨c, r, hinp, hm, _⟩ := matchRE_cls_single hm
    subst hm hinp
    rfl
  | rep neg spans a g =>
    intro inp m hm
    obtain ⟨n, hm, _, _, _⟩ := matchRE_rep_mem hm
    subst hm
    exact List.take_append_drop n inp
  | seq r1 r2 ih1 ih2 =>
    intro inp m hm
    obtain ⟨m1, m2, h1, h2, _, hcons, hrest⟩ := matchRE_seq_mem hm
    rw [hcons, hrest, List.append_assoc, ih2 _ _ h2, ih1 _ _ h1]
  | alt r1 r2 ih1 ih2 =>
    intro inp m hm
    simp only [matchRE, List.mem_append] at hm
    rcases hm with hm | hm
    · exact ih1 _ _ hm
    · exact ih2 _ _ hm
  | opt r ih =>
    intro inp m hm
    simp only [matchRE, List.mem_append, List.mem_singleton] at hm
    rcases hm with hm | hm
    · exact ih _ _ hm
    · subst hm; rfl
  | group i r ih =>
    intro inp m hm
    obtain ⟨m', h1, hm⟩ := matchRE_group_mem hm
    subst hm
    exact ih inp m' h1

/-- Helper: a match of a group-free regex records no captures. -/
theorem matchRE_groupFree_caps : ∀ (r : RE), groupFree r = true →
    ∀ (inp : List Char) (m : MRes), m ∈ matchRE r inp → m.caps = [] := by
  intro r
  induction r with
  | lit s =>
    intro _ inp m hm
    simp only [matchRE] at hm
    split at hm
    · simp only [List.mem_singleton] at hm; subst hm; rfl
    · simp at hm
  | cls neg spans =>
    intro _ inp m hm
    obtain ⟨c, r, _, hm, _⟩ := matchRE_cls_single hm
    subst hm; rfl
  | rep neg spans a g =>
    intro _ inp m hm
    obtain ⟨n, hm, _, _, _⟩ := matchRE_rep_mem hm
    subst hm; rfl
  | seq r1 r2 ih1 ih2 =>
    intro hgf inp m hm
    simp only [groupFree, Bool.and_eq_true] at hgf
    obtain ⟨m1, m2, h1, h2, hcaps, _, _⟩ := matchRE_seq_mem hm
    rw [hcaps, ih1 hgf.1 _ _ h1, ih2 hgf.2 _ _ h2]
    rfl
  | alt r1 r2 ih1 ih2 =>
    intro hgf inp m hm
    simp only [groupFree, Bool.and_eq_true] at hgf
    simp only [matchRE, List.mem_append] at hm
    rcases hm with hm | hm
    · exact ih1 hgf.1 _ _ hm
    · exact ih2 hgf.2 _ _ hm
  | opt r ih =>
    intro hgf inp m hm
    simp only [matchRE, List.mem_append, List.mem_singleton] at hm
    rcases hm with hm | hm
    · exact ih hgf _ _ hm
    · subst hm; rfl
  | group i r ih =>
    intro hgf
    simp [groupFree] at hgf

/-- Helper: a match of the quote class consumes exactly one quote character. -/
theorem matchRE_quoteRE_mem {inp : List Char} {m : MRes}
    (hm : m ∈ matchRE quoteRE inp) :
    ∃ c r, inp = c :: r ∧ m = ⟨[], [c], r⟩ ∧ inSpans qSp c = true := by
  obtain ⟨c, r, h1, h2, h3⟩ := matchRE_cls_single hm
  exact ⟨c, r, h1, h2, by simpa [clsHit] using h3⟩

/-- Helper: a match of `quoteRE` ends (and begins) with a quote character. -/
theorem endsQuote_quoteRE : ∀ (inp : List Char) (m : MRes),
    m ∈ matchRE quoteRE inp →
    ∃ t q, m.consumed = t ++ [q] ∧ inSpans qSp q = true := by
  intro inp m hm
  obtain ⟨c, r, _, hm, hq⟩ := matchRE_quoteRE_mem hm
  subst hm
  exact ⟨[], c, rfl, hq⟩

/-- Helper: ending in a quote lifts through sequencing on the left. -/
theorem endsQuote_seq {r1 r2 : RE}
    (h2 : ∀ (inp : List Char) (m : MRes), m ∈ matchRE r2 inp →
      ∃ t q, m.consumed = t ++ [q] ∧ inSpans qSp q = true) :
    ∀ (inp : List Char) (m : MRes), m ∈ matchRE (.seq r1 r2) inp →
    ∃ t q, m.consumed = t ++ [q] ∧ inSpans qSp q = true := by
  intro inp m hm
  obtain ⟨m1, m2, hm1, hm2, _, hcons, _⟩ := matchRE_seq_mem hm
  obtain ⟨t, q, ht, hq⟩ := h2 _ _ hm2
  exact ⟨m1.consumed ++ t, q, by rw [hcons, ht, List.append_assoc], hq⟩

/-- Helper: a match of a sequence headed by the quote class begins with a
quote character. -/
theorem headQuote_seq {r2 : RE} :
    ∀ (inp : List Char) (m : MRes), m ∈ matchRE (.seq quoteRE r2) inp →
    ∃ q t, m.consumed = q :: t ∧ inSpans qSp q = true := by
  intro inp m hm
  obtain ⟨m1, m2, hm1, _, _, hcons, _⟩ := matchRE_seq_mem hm
  obtain ⟨c, r, _, hm1e, hq⟩ := matchRE_quoteRE_mem hm1
  subst hm1e
  exact ⟨c, m2.consumed, by rw [hcons]; rfl, hq⟩

/-- Helper: every match of a pattern of the rewriter's shape — group 1 ending
at the opening quote, group 2 the lazily-matched path, group 3 the literal
`.js`, group 4 beginning with the closing quote — decomposes into its four
captures: the consumed text is `g1 ++ g2 ++ ".js" ++ g4`, the replacement is
`g1 ++ g2 ++ g4` (exactly the `.js` removed), `g1` ends with the opening
quote, the path `g2` is nonempty and contains no quote and no `?`, and `g4`
begins with the closing quote. -/
theorem fourGroup_match_decomp (A D : RE) (hA : groupFree A = true)
    (hD : groupFree D = true)
    (hAq : ∀ (inp : List Char) (m : MRes), m ∈ matchRE A inp →
      ∃ t q, m.consumed = t ++ [q] ∧ inSpans qSp q = true)
    (hDq : ∀ (inp : List Char) (m : MRes), m ∈ matchRE D inp →
      ∃ q t, m.consumed = q :: t ∧ inSpans qSp q = true)
    (inp : List Char) (m : MRes)
    (hm : m ∈ matchRE (.seq (.group 1 A) (.seq (.group 2 pathLazy)
      (.seq (.group 3 (.lit ".js".toList)) (.group 4 D)))) inp) :
    ∃ g1 g2 g4,
      m.caps = [(1, g1), (2, g2), (3, ".js".toList), (4, g4)] ∧
      m.consumed = g1 ++ g2 ++ ".js".toList ++ g4 ∧
      stripRepl m.caps = g1 ++ g2 ++ g4 ∧
      (∃ t1 q1, g1 = t1 ++ [q1] ∧ inSpans qSp q1 = true) ∧
      g2 ≠ [] ∧ (∀ c ∈ g2, inSpans pathSp c = false) ∧
      ∃ q t, g4 = q :: t ∧ inSpans qSp q = true := by
  obtain ⟨m1, mr1, hm1, hmr1, hcaps1, hcons1, _⟩ := matchRE_seq_mem hm
  obtain ⟨m2, mr2, hm2, hmr2, hcaps2, hcons2, _⟩ := matchRE_seq_mem hmr1
  obtain ⟨m3, m4, hm3, hm4, hcaps3, hcons3, _⟩ := matchRE_seq_mem hmr2
  obtain ⟨mA, hmA, hm1e⟩ := matchRE_group_mem hm1
  obtain ⟨mB, hmB, hm2e⟩ := matchRE_group_mem hm2
  obtain ⟨mC, hmC, hm3e⟩ := matchRE_group_mem hm3
  obtain ⟨mD, hmD, hm4e⟩ := matchRE_group_mem hm4
  have hcapsA : mA.caps = [] := matchRE_groupFree_caps A hA _ _ hmA
  have hcapsD : mD.caps = [] := matchRE_groupFree_caps D hD _ _ hmD
  obtain ⟨nB, hmBe, hB1, hBbound, hBc⟩ := matchRE_rep_mem hmB
  -- the literal group consumes exactly ".js" and records no captures
  have hmCe : mC.consumed = ".js".toList ∧ mC.caps = [] := by
    have h := hmC
    simp only [matchRE] at h
    split at h
    · simp only [List.mem_singleton] at h
      subst h
      exact ⟨rfl, rfl⟩
    · simp at h
  -- g2 is a nonempty run of path-class characters
  have hn1 : 1 ≤ nB := hB1 rfl
  have hg2ne : mB.consumed ≠ [] := by
    rw [hmBe]
    show m1.rest.take nB ≠ []
    cases hrest : m1.rest with
    | nil =>
      exfalso
      rw [hrest] at hBbound
      simp only [countRun] at hBbound
      omega
    | cons c cs =>
      cases nB with
      | zero => exact absurd hn1 (by omega)
      | succ k => simp
  have hg2cls : ∀ c ∈ mB.consumed, inSpans pathSp c = false := by
    intro c hc
    have := hBc c hc
    simpa [clsHit] using this
  refine ⟨mA.consumed, mB.consumed, mD.consumed, ?_, ?_, ?_, hAq _ _ hmA, hg2ne,
    hg2cls, hDq _ _ hmD⟩
  · rw [hcaps1, hcaps2, hcaps3, hm1e, hm2e, hm3e, hm4e, hcapsA, hcapsD,
      hmCe.1, hmCe.2]
    simp only [hmBe]
    rfl
  · rw [hcons1, hcons2, hcons3, hm1e, hm2e, hm3e, hm4e, hmCe.1]
    simp [List.append_assoc]
  · rw [hcaps1, hcaps2, hcaps3, hm1e, hm2e, hm3e, hm4e, hcapsA, hcapsD,
      hmCe.1, hmCe.2]
    simp only [hmBe]
    rfl

/-- Helper: a successful leftmost search splits the text as the unmatched
prefix followed by the suffix the match was found at. -/
theorem findMatch_decomp (p : RE) : ∀ (s pre : List Char) (m : MRes),
    findMatch p s = some (pre, m) → ∃ suf, s = pre ++ suf ∧ m ∈ matchRE p suf := by
  intro s
  induction s with
  | nil =>
    intro pre m hf
    simp only [findMatch] at hf
    cases hmm : matchRE p [] with
    | nil => rw [hmm] at hf; simp at hf
    | cons m0 tail =>
      rw [hmm] at hf
      simp only [Option.some.injEq, Prod.mk.injEq] at hf
      obtain ⟨h1, h2⟩ := hf
      subst h1 h2
      exact ⟨[], rfl, by rw [hmm]; exact List.mem_cons_self m0 tail⟩
  | cons c r ih =>
    intro pre m hf
    simp only [findMatch] at hf
    cases hmm : matchRE p (c :: r) with
    | cons m0 tail =>
      rw [hmm] at hf
      simp only [Option.some.injEq, Prod.mk.injEq] at hf
      obtain ⟨h1, h2⟩ := hf
      subst h1 h2
      exact ⟨c :: r, rfl, by rw [hmm]; exact List.mem_cons_self m0 tail⟩
    | nil =>
      rw [hmm] at hf
      cases hrec : findMatch p r with
      | none => rw [hrec] at hf; simp at hf
      | some pr =>
        rw [hrec] at hf
        simp only [Option.map, Option.some.injEq, Prod.mk.injEq] at hf
        obtain ⟨h1, h2⟩ := hf
        obtain ⟨suf, hs, hmem⟩ := ih pr.1 pr.2 (by rw [hrec])
        refine ⟨suf, ?_, h2 ▸ hmem⟩
        rw [← h1, hs]
        rfl

/-- Helper: exact-`.js`-removal is reflexive (zero occurrences deleted). -/
theorem exactJsRemoval_refl : ∀ (s : List Char), ExactJsRemoval s s := by
  intro s
  induction s with
  | nil => exact ExactJsRemoval.nil
  | cons c r ih => exact ExactJsRemoval.keep c ih

/-- Helper: exact-`.js`-removal is preserved under a common prefix. -/
theorem exactJsRemoval_append_left (u : List Char) {s t : List Char}
    (h : ExactJsRemoval s t) : ExactJsRemoval (u ++ s) (u ++ t) := by
  induction u with
  | nil => exact h
  | cons c r ih => exact ExactJsRemoval.keep c ih

/-- Helper: a full substitution pass of a pattern whose every match replaces
`g1 ++ g2 ++ ".js" ++ g4` by `g1 ++ g2 ++ g4` deletes exactly the matched
`.js` occurrences and preserves every other character. -/
theorem subnAux_exact (p : RE)
    (hdec : ∀ (inp : List Char) (m : MRes), m ∈ matchRE p inp →
      ∃ g1 g2 g4, m.consumed = g1 ++ g2 ++ ".js".toList ++ g4 ∧
        stripRepl m.caps = g1 ++ g2 ++ g4) :
    ∀ (fuel : Nat) (s : List Char), ExactJsRemoval s (subnAux p fuel s).1 := by
  intro fuel
  induction fuel with
  | zero => intro s; exact exactJsRemoval_refl s
  | succ fuel ih =>
    intro s
    cases hf : findMatch p s with
    | none =>
      simp only [subnAux, hf]
      exact exactJsRemoval_refl s
    | some pr =>
      obtain ⟨pre, m⟩ := pr
      simp only [subnAux, hf]
      obtain ⟨suf, hs, hmem⟩ := findMatch_decomp p s pre m hf
      obtain ⟨g1, g2, g4, hcons, hrepl⟩ := hdec suf m hmem
      have hsuf : m.consumed ++ m.rest = suf := matchRE_consumed_rest p suf m hmem
      subst hs
      rw [← hsuf, hcons, hrepl]
      simp only [List.append_assoc]
      apply exactJsRemoval_append_left pre
      apply exactJsRemoval_append_left g1
      apply exactJsRemoval_append_left g2
      rw [show (".js".toList : List Char) = '.' :: 'j' :: 's' :: [] from rfl]
      simp only [List.cons_append, List.nil_append]
      exact ExactJsRemoval.dropJs (exactJsRemoval_append_left g4 (ih m.rest))

/-- Helper: one iteration of the pattern loop either leaves the text alone or
applies one full substitution pass, so it is an exact-`.js`-removal. -/
theorem applyPat_exact (p : RE)
    (hdec : ∀ (inp : List Char) (m : MRes), m ∈ matchRE p inp →
      ∃ g1 g2 g4, m.consumed = g1 ++ g2 ++ ".js".toList ++ g4 ∧
        stripRepl m.caps = g1 ++ g2 ++ g4)
    (acc : List Char × Bool) : ExactJsRemoval acc.1 (applyPat acc p).1 := by
  have hdef : applyPat acc p =
      if 0 < (subn p acc.1).2 then ((subn p acc.1).1, true) else acc := rfl
  rw [hdef]
  split
  · exact subnAux_exact p hdec (acc.1.length + 1) acc.1
  · exact exactJsRemoval_refl acc.1

/-- Helper: a match of `quoteRE` begins with a quote character. -/
theorem headQuote_quoteRE : ∀ (inp : List Char) (m : MRes),
    m ∈ matchRE quoteRE inp →
    ∃ q t, m.consumed = q :: t ∧ inSpans qSp q = true := by
  intro inp m hm
  obtain ⟨c, r, _, hm, hq⟩ := matchRE_quoteRE_mem hm
  subst hm
  exact ⟨c, [], rfl, hq⟩

/-- Helper: the match characterization instantiated at `IMPORT_RE`. -/
theorem import_match_decomp (inp : List Char) (m : MRes)
    (hm : m ∈ matchRE IMPORT_RE inp) :
    ∃ g1 g2 g4,
      m.caps = [(1, g1), (2, g2), (3, ".js".toList), (4, g4)] ∧
      m.consumed = g1 ++ g2 ++ ".js".toList ++ g4 ∧
      stripRepl m.caps = g1 ++ g2 ++ g4 ∧
      (∃ t1 q1, g1 = t1 ++ [q1] ∧ inSpans qSp q1 = true) ∧
      g2 ≠ [] ∧ (∀ c ∈ g2, inSpans pathSp c = false) ∧
      ∃ q t, g4 = q :: t ∧ inSpans qSp q = true :=
  fourGroup_match_decomp (reSeqL [.lit "from".toList, wsPlus, quoteRE]) quoteRE
    rfl rfl (endsQuote_seq (endsQuote_seq endsQuote_quoteRE)) headQuote_quoteRE
    inp m hm

/-- Helper: the match characterization instantiated at `EXPORT_RE`. -/
theorem export_match_decomp (inp : List Char) (m : MRes)
    (hm : m ∈ matchRE EXPORT_RE inp) :
    ∃ g1 g2 g4,
      m.caps = [(1, g1), (2, g2), (3, ".js".toList), (4, g4)] ∧
      m.consumed = g1 ++ g2 ++ ".js".toList ++ g4 ∧
      stripRepl m.caps = g1 ++ g2 ++ g4 ∧
      (∃ t1 q1, g1 = t1 ++ [q1] ∧ inSpans qSp q1 = true) ∧
      g2 ≠ [] ∧ (∀ c ∈ g2, inSpans pathSp c = false) ∧
      ∃ q t, g4 = q :: t ∧ inSpans qSp q = true :=
  fourGroup_match_decomp
    (reSeqL [.lit "import".toList, wsPlus, .rep true semiSp true false, wsPlus,
      .lit "from".toList, wsPlus, quoteRE]) quoteRE rfl rfl
    (endsQuote_seq (endsQuote_seq (endsQuote_seq (endsQuote_seq
      (endsQuote_seq (endsQuote_seq endsQuote_quoteRE))))))
    headQuote_quoteRE inp m hm

/-- Helper: the match characterization instantiated at `REQUIRE_RE`. -/
theorem require_match_decomp (inp : List Char) (m : MRes)
    (hm : m ∈ matchRE REQUIRE_RE inp) :
    ∃ g1 g2 g4,
      m.caps = [(1, g1), (2, g2), (3, ".js".toList), (4, g4)] ∧
      m.consumed = g1 ++ g2 ++ ".js".toList ++ g4 ∧
      stripRepl m.caps = g1 ++ g2 ++ g4 ∧
      (∃ t1 q1, g1 = t1 ++ [q1] ∧ inSpans qSp q1 = true) ∧
      g2 ≠ [] ∧ (∀ c ∈ g2, inSpans pathSp c = false) ∧
      ∃ q t, g4 = q :: t ∧ inSpans qSp q = true :=
  fourGroup_match_decomp (reSeqL [.lit "require(".toList, wsStar, quoteRE])
    (reSeqL [quoteRE, wsStar, .lit ")".toList]) rfl rfl
    (endsQuote_seq (endsQuote_seq endsQuote_quoteRE)) headQuote_seq inp m hm

/-- Helper: the match characterization instantiated at `DYNAMIC_IMPORT_RE`. -/
theorem dynamic_match_decomp (inp : List Char) (m : MRes)
    (hm : m ∈ matchRE DYNAMIC_IMPORT_RE inp) :
    ∃ g1 g2 g4,
      m.caps = [(1, g1), (2, g2), (3, ".js".toList), (4, g4)] ∧
      m.consumed = g1 ++ g2 ++ ".js".toList ++ g4 ∧
      stripRepl m.caps = g1 ++ g2 ++ g4 ∧
      (∃ t1 q1, g1 = t1 ++ [q1] ∧ inSpans qSp q1 = true) ∧
      g2 ≠ [] ∧ (∀ c ∈ g2, inSpans pathSp c = false) ∧
      ∃ q t, g4 = q :: t ∧ inSpans qSp q = true :=
  fourGroup_match_decomp (reSeqL [.lit "import(".toList, wsStar, quoteRE])
    (reSeqL [quoteRE, wsStar, .lit ")".toList]) rfl rfl
    (endsQuote_seq (endsQuote_seq endsQuote_quoteRE)) headQuote_seq inp m hm

/-- Helper: the whole `process_file` text transformation is a chain of
exact-`.js`-removals: the fast path keeps the text, and each of the four
pattern passes deletes exactly its matches' terminal `.js` suffixes. -/
theorem processText_removal_chain (t : String) :
    Relation.ReflTransGen ExactJsRemoval t.toList (processText t).1.toList := by
  have hdecI : ∀ (inp : List Char) (m : MRes), m ∈ matchRE IMPORT_RE inp →
      ∃ g1 g2 g4, m.consumed = g1 ++ g2 ++ ".js".toList ++ g4 ∧
        stripRepl m.caps = g1 ++ g2 ++ g4 := by
    intro inp m hm
    obtain ⟨g1, g2, g4, _, h2, h3, _⟩ := import_match_decomp inp m hm
    exact ⟨g1, g2, g4, h2, h3⟩
  have hdecE : ∀ (inp : List Char) (m : MRes), m ∈ matchRE EXPORT_RE inp →
      ∃ g1 g2 g4, m.consumed = g1 ++ g2 ++ ".js".toList ++ g4 ∧
        stripRepl m.caps = g1 ++ g2 ++ g4 := by
    intro inp m hm
    obtain ⟨g1, g2, g4, _, h2, h3, _⟩ := export_match_decomp inp m hm
    exact ⟨g1, g2, g4, h2, h3⟩
  have hdecR : ∀ (inp : List Char) (m : MRes), m ∈ matchRE REQUIRE_RE inp →
      ∃ g1 g2 g4, m.consumed = g1 ++ g2 ++ ".js".toList ++ g4 ∧
        stripRepl m.caps = g1 ++ g2 ++ g4 := by
    intro inp m hm
    obtain ⟨g1, g2, g4, _, h2, h3, _⟩ := require_match_decomp inp m hm
    exact ⟨g1, g2, g4, h2, h3⟩
  have hdecD : ∀ (inp : List Char) (m : MRes), m ∈ matchRE DYNAMIC_IMPORT_RE inp →
      ∃ g1 g2 g4, m.consumed = g1 ++ g2 ++ ".js".toList ++ g4 ∧
        stripRepl m.caps = g1 ++ g2 ++ g4 := by
    intro inp m hm
    obtain ⟨g1, g2, g4, _, h2, h3, _⟩ := dynamic_match_decomp inp m hm
    exact ⟨g1, g2, g4, h2, h3⟩
  unfold processText
  split
  · exact Relation.ReflTransGen.refl
  · simp only [List.foldl]
    exact ((((Relation.ReflTransGen.refl.tail
      (applyPat_exact IMPORT_RE hdecI (t.toList, false))).tail
      (applyPat_exact EXPORT_RE hdecE _)).tail
      (applyPat_exact REQUIRE_RE hdecR _)).tail
      (applyPat_exact DYNAMIC_IMPORT_RE hdecD _))

/-- Helper: content that already carries the banner passes `ensure_banner`'s
marker test; the test never reads past the banner, so this holds for every
continuation `t`. -/
theorem hasMarker_banner_append (t : String) : hasMarker (TS_NOCHECK_BANNER ++ t) = true :=
  rfl

/-- Claim C5: for every file content, the Reference Rewriter removes exactly
terminal `.js` suffixes with every other character preserved, and only
eligible references are ever rewritten.  Universally: (1) for each of the four
patterns, a full substitution pass is an exact-`.js`-removal (each deleted
occurrence is contiguous, nothing else changes), and every match decomposes as
`g1 ++ g2 ++ ".js" ++ g4` replaced by `g1 ++ g2 ++ g4`, where `g1` ends at the
opening quote, the path `g2` is nonempty with no quote and no `?` character
(so a path with `?` before the suffix, or whose `.js` is not immediately
before the closing delimiter, never matches), and `g4` begins with the closing
quote; (2) the whole per-file transformation is a chain of such removals; and
(3) the concrete round trips: `import x from './a.js'` yields exactly
`import x from './a'`, `require("./b.js")` yields `require("./b")`, while
`./js.config.js2` and `./x?y.js` are left untouched. -/
theorem claim_C5_strip_terminal_js_only :
    (∀ (p : RE),
      p = IMPORT_RE ∨ p = EXPORT_RE ∨ p = REQUIRE_RE ∨ p = DYNAMIC_IMPORT_RE →
      (∀ s : List Char, ExactJsRemoval s (subn p s).1) ∧
      ∀ (inp : List Char) (m : MRes), m ∈ matchRE p inp →
        ∃ g1 g2 g4,
          m.consumed = g1 ++ g2 ++ ".js".toList ++ g4 ∧
          stripRepl m.caps = g1 ++ g2 ++ g4 ∧
          (∃ t1 q1, g1 = t1 ++ [q1] ∧ inSpans qSp q1 = true) ∧
          g2 ≠ [] ∧ (∀ c ∈ g2, inSpans pathSp c = false) ∧
          ∃ q t, g4 = q :: t ∧ inSpans qSp q = true) ∧
    (∀ t : String,
      Relation.ReflTransGen ExactJsRemoval t.toList (processText t).1.toList) ∧
    processText "import x from './a.js'" = ("import x from './a'", true) ∧
    processText "require(\"./b.js\")" = ("require(\"./b\")", true) ∧
    processText "import x from './js.config.js2'" =
      ("import x from './js.config.js2'", false) ∧
    processText "import x from './x?y.js'" = ("import x from './x?y.js'", false) := by
  refine ⟨?_, processText_removal_chain, rfl, rfl, rfl, rfl⟩
  intro p hp
  have hdec : ∀ (inp : List Char) (m : MRes), m ∈ matchRE p inp →
      ∃ g1 g2 g4,
        m.consumed = g1 ++ g2 ++ ".js".toList ++ g4 ∧
        stripRepl m.caps = g1 ++ g2 ++ g4 ∧
        (∃ t1 q1, g1 = t1 ++ [q1] ∧ inSpans qSp q1 = true) ∧
        g2 ≠ [] ∧ (∀ c ∈ g2, inSpans pathSp c = false) ∧
        ∃ q t, g4 = q :: t ∧ inSpans qSp q = true := by
    rcases hp with h | h | h | h <;> subst h <;> intro inp m hm
    · obtain ⟨g1, g2, g4, _, h2, h3, h4, h5, h6, h7⟩ := import_match_decomp inp m hm
      exact ⟨g1, g2, g4, h2, h3, h4, h5, h6, h7⟩
    · obtain ⟨g1, g2, g4, _, h2, h3, h4, h5, h6, h7⟩ := export_match_decomp inp m hm
      exact ⟨g1, g2, g4, h2, h3, h4, h5, h6, h7⟩
    · obtain ⟨g1, g2, g4, _, h2, h3, h4, h5, h6, h7⟩ := require_match_decomp inp m hm
      exact ⟨g1, g2, g4, h2, h3, h4, h5, h6, h7⟩
    · obtain ⟨g1, g2, g4, _, h2, h3, h4, h5, h6, h7⟩ := dynamic_match_decomp inp m hm
      exact ⟨g1, g2, g4, h2, h3, h4, h5, h6, h7⟩
  refine ⟨fun s => ?_, hdec⟩
  have hdec' : ∀ (inp : List Char) (m : MRes), m ∈ matchRE p inp →
      ∃ g1 g2 g4, m.consumed = g1 ++ g2 ++ ".js".toList ++ g4 ∧
        stripRepl m.caps = g1 ++ g2 ++ g4 := by
    intro inp m hm
    obtain ⟨g1, g2, g4, h2, h3, _⟩ := hdec inp m hm
    exact ⟨g1, g2, g4, h2, h3⟩
  exact subnAux_exact p hdec' (s.length + 1) s

/-- Witness for C5, exercising both universal parts at concrete inputs: the
pass over `import x from './a.js'` is an exact removal, and the concrete
leftmost match of `IMPORT_RE` on `from './a.js'` decomposes as characterized. -/
theorem claim_C5_witness :
    ExactJsRemoval "import x from './a.js'".toList
      (subn IMPORT_RE "import x from './a.js'".toList).1 ∧
    (∃ g1 g2 g4,
      (⟨[(1, "from '".toList), (2, "./a".toList), (3, ".js".toList),
          (4, "'".toList)], "from './a.js'".toList, []⟩ : MRes).consumed =
        g1 ++ g2 ++ ".js".toList ++ g4 ∧
      stripRepl (⟨[(1, "from '".toList), (2, "./a".toList), (3, ".js".toList),
          (4, "'".toList)], "from './a.js'".toList, []⟩ : MRes).caps =
        g1 ++ g2 ++ g4 ∧
      (∃ t1 q1, g1 = t1 ++ [q1] ∧ inSpans qSp q1 = true) ∧
      g2 ≠ [] ∧ (∀ c ∈ g2, inSpans pathSp c = false) ∧
      ∃ q t, g4 = q :: t ∧ inSpans qSp q = true) :=
  ⟨(claim_C5_strip_terminal_js_only.1 IMPORT_RE (Or.inl rfl)).1
      "import x from './a.js'".toList,
   (claim_C5_strip_terminal_js_only.1 IMPORT_RE (Or.inl rfl)).2
      "from './a.js'".toList
      ⟨[(1, "from '".toList), (2, "./a".toList), (3, ".js".toList),
        (4, "'".toList)], "from './a.js'".toList, []⟩ (by decide)⟩

/-- Claim C6 (counterexample): re-running the Reference Rewriter is not always
a no-op.  On `from './a.js.js'` the first run strips only the final suffix,
leaving `from './a.js'`, which a second run rewrites again. -/
theorem claim_C6_counterexample :
    processText "from './a.js.js'" = ("from './a.js'", true) ∧
    (processText (processText "from './a.js.js'").1).1 ≠
      (processText "from './a.js.js'").1 :=
  ⟨rfl, by decide⟩

/-- Claim C6 (amended): a run of the Reference Rewriter changes nothing on
content with no `.js` immediately before a quote (the fast-path condition) —
in particular on any output whose rewritten references all ended in a single
`.js` — but a second run is not a no-op in general (doubled suffixes). -/
theorem claim_C6_amended (t : String)
    (h1 : hasSubL ".js'".toList t.toList = false)
    (h2 : hasSubL ".js\"".toList t.toList = false) :
    processText t = (t, false) := by
  unfold processText
  rw [h1, h2]
  simp

/-- Witness for the amended C6 at a concrete already-converted content. -/
theorem claim_C6_amended_witness :
    processText "import x from './a'" = ("import x from './a'", false) :=
  claim_C6_amended "import x from './a'" rfl rfl

/-- Claim C9: banner injection is idempotent — content already starting
(after leading whitespace) with the `@ts-nocheck` marker is returned
unchanged, otherwise the fixed banner is prepended, and the result is a fixed
point of the step. -/
theorem claim_C9_banner_idempotent (t : String) :
    ensure_banner (ensure_banner t) = ensure_banner t ∧
    (hasMarker t = true → ensure_banner t = t) ∧
    (hasMarker t = false → ensure_banner t = TS_NOCHECK_BANNER ++ t) := by
  refine ⟨?_, fun h => by simp [ensure_banner, h], fun h => by simp [ensure_banner, h]⟩
  by_cases h : hasMarker t
  · simp [ensure_banner, h]
  · simp only [Bool.not_eq_true] at h
    simp [ensure_banner, h, hasMarker_banner_append]

/-- Witness for C9's conditional parts at concrete contents. -/
theorem claim_C9_witness :
    ensure_banner "// @ts-nocheck\nlet q = 2" = "// @ts-nocheck\nlet q = 2" ∧
    ensure_banner "let q = 2" = TS_NOCHECK_BANNER ++ "let q = 2" :=
  ⟨(claim_C9_banner_idempotent "// @ts-nocheck\nlet q = 2").2.1 rfl,
   (claim_C9_banner_idempotent "let q = 2").2.2 rfl⟩

/-- Claim C8: when the computed target path already exists, `convert_file`
aborts non-destructively — the file system (hence the source file's content)
is unchanged byte for byte and the outcome is the skip outcome, not an error. -/
theorem claim_C8_collision_skip (fs : FS) (p : FPath) (text t2 : String) (d : Bool)
    (h1 : fsRead fs p = some text)
    (h2 : fsRead fs
        (p.dropLast ++ [withSuffix (p.getLastD "") (target_extension p text)]) =
      some t2) :
    convert_file fs p d = (fs, ConvOutcome.skippedExists) := by
  simp only [convert_file, h1, h2]

/-- Witness for C8 on a two-file file system where the `.ts` target exists. -/
theorem claim_C8_witness :
    convert_file [(["utils", "a.js"], "let x = 1"), (["utils", "a.ts"], "existing")]
      ["utils", "a.js"] false =
      ([(["utils", "a.js"], "let x = 1"), (["utils", "a.ts"], "existing")],
        ConvOutcome.skippedExists) :=
  claim_C8_collision_skip _ _ "let x = 1" "existing" false rfl rfl

/-- Claim C3 (code behaviour at the failing input): when a region's start
marker is found but its end text never occurs before end of file, the script
does not fail: the scan contributes no range, every other scan finds nothing,
and the excision result — which the script always writes back — is the input
unchanged.  This contradicts the claim that an unterminated region is a fatal
error for the file's excision operation. -/
theorem claim_C3_unterminated_region_not_fatal :
    findStart
        (pySplitNl
          "// Add focus listener to reload data when returning to screen\nconst x = 1;")
        "// Add focus listener to reload data when returning to screen" = some 0 ∧
    phase5Ranges
        (pySplitNl
          "// Add focus listener to reload data when returning to screen\nconst x = 1;") =
      [] ∧
    phase5 "// Add focus listener to reload data when returning to screen\nconst x = 1;" =
      "// Add focus listener to reload data when returning to screen\nconst x = 1;" :=
  ⟨rfl, rfl, rfl⟩

/-- Claim C10 (counterexample): the generic `from` pattern and the specific
`import … from` pattern can rewrite the same reference twice.  On
`import x from './a.js.js'` the generic pass leaves `import x from './a.js'`,
on which the specific pattern performs one further substitution, so the
four-pattern pipeline differs from the three-pattern one. -/
theorem claim_C10_counterexample :
    (subn EXPORT_RE (applyPat ("import x from './a.js.js'".toList, false) IMPORT_RE).1).2
        = 1 ∧
    fourPass "import x from './a.js.js'".toList ≠
      threePass "import x from './a.js.js'".toList :=
  ⟨rfl, by decide⟩

/-- Claim C10 (amended): whenever the specific pattern makes zero
substitutions on the generic pass's output — which holds for all
singly-suffixed references but can fail for doubled suffixes — the combined
effect of the four patterns applied in order equals the effect of the
generic-`from`, `require` and dynamic-`import` patterns alone. -/
theorem claim_C10_amended (t : List Char)
    (h : (subn EXPORT_RE (applyPat (t, false) IMPORT_RE).1).2 = 0) :
    fourPass t = threePass t := by
  have he : applyPat (applyPat (t, false) IMPORT_RE) EXPORT_RE =
      applyPat (t, false) IMPORT_RE := by
    have hdef : applyPat (applyPat (t, false) IMPORT_RE) EXPORT_RE =
        if 0 < (subn EXPORT_RE (applyPat (t, false) IMPORT_RE).1).2 then
          ((subn EXPORT_RE (applyPat (t, false) IMPORT_RE).1).1, true)
        else applyPat (t, false) IMPORT_RE := rfl
    rw [hdef, h]
    simp
  unfold fourPass threePass
  simp only [List.foldl]
  rw [he]

/-- Witness for the amended C10 on a singly-suffixed reference. -/
theorem claim_C10_witness :
    fourPass "import x from './a.js'".toList = threePass "import x from './a.js'".toList :=
  claim_C10_amended _ rfl

/-- Claim C7: the Classifier assigns `.tsx` exactly when some path segment is
component-like or the content matches one of the three JSX signatures, and
`.ts` otherwise; comparison/generic tokens such as `a < b` and `Map<string>`
do not count as JSX. -/
theorem claim_C7_classifier :
    (∀ (segs : List String) (text : String),
      target_extension segs text = ".tsx" ↔
        (should_force_tsx segs = true ∨ contains_jsx text = true)) ∧
    target_extension ["components", "x.js"] "const y = 1" = ".tsx" ∧
    target_extension ["utils", "x.js"] "const y = a < b; const m: Map<string> = z" =
      ".ts" ∧
    contains_jsx "</View>" = true ∧
    contains_jsx "<Text />" = true ∧
    contains_jsx "<Item foo=\"bar\">" = true := by
  refine ⟨?_, rfl, rfl, rfl, rfl, rfl⟩
  intro segs text
  unfold target_extension
  by_cases h1 : should_force_tsx segs
  · simp [h1]
  · by_cases h2 : contains_jsx text
    · simp [h1, h2]
    · simp [h1, h2]

/-- Witness applying C7's equivalence at a concrete component-like path. -/
theorem claim_C7_witness :
    target_extension ["components", "x.js"] "const q = 0" = ".tsx" :=
  (claim_C7_classifier.1 ["components", "x.js"] "const q = 0").mpr (Or.inl rfl)

/-- Helper: a nonempty suffix of `lines` starting at `j` determines that `j`
is in range, the head is line `j`, and the tail is the suffix from `j + 1`. -/
theorem drop_eq_cons_getD {lines : List String} {j : Nat} {l : String}
    {rest : List String} (h : lines.drop j = l :: rest) :
    j < lines.length ∧ lines.getD j "" = l ∧ lines.drop (j + 1) = rest := by
  have hj : j < lines.length := by
    by_contra hge
    push_neg at hge
    rw [List.drop_eq_nil_of_le hge] at h
    exact absurd h (by simp)
  have hd := List.drop_eq_getElem_cons hj
  rw [hd] at h
  injection h with h1 h2
  exact ⟨hj, by rw [List.getD_eq_getElem lines "" hj, h1], h2⟩

/-- Helper: what a successful guarded scan means, relative to the position it
started from.  The extra list argument is the suffix of `lines` from `j`. -/
theorem guardScanAux_some (lines : List String) (i : Nat) (e g : String) :
    ∀ (rest : List String) (j r : Nat), rest = lines.drop j →
      guardScanAux lines i e g rest j = some r →
      j ≤ r ∧ r < lines.length ∧ guardCondAt lines i e g r = true ∧
        ∀ k, j ≤ k → k < r → guardCondAt lines i e g k = false := by
  intro rest
  induction rest with
  | nil => intro j r _ hsc; simp [guardScanAux] at hsc
  | cons l rest ih =>
    intro j r hdrop hsc
    obtain ⟨hj, hhead, htail⟩ := drop_eq_cons_getD hdrop.symm
    simp only [guardScanAux] at hsc
    by_cases hcond : strContains l e && strContains (joinRange lines i j) g
    · rw [if_pos hcond] at hsc
      injection hsc with hr
      subst hr
      refine ⟨Nat.le_refl _, hj, ?_, ?_⟩
      · unfold guardCondAt
        rw [hhead]
        exact hcond
      · intro k hk1 hk2
        omega
    · rw [if_neg hcond] at hsc
      obtain ⟨h1, h2, h3, h4⟩ := ih (j + 1) r htail.symm hsc
      refine ⟨by omega, h2, h3, ?_⟩
      intro k hk1 hk2
      rcases Nat.eq_or_lt_of_le hk1 with heq | hlt
      · subst heq
        unfold guardCondAt
        rw [hhead]
        exact Bool.not_eq_true _ |>.mp hcond
      · exact h4 k hlt hk2

/-- Claim C4 (counterexample): with the monitor region's literals, a line
containing both the end literal and the guard satisfies the claim's inclusive
end condition — the end literal occurs on line 1 and the guard occurs in the
joined text of lines 0 through 1 — yet the code's scan, whose guard test
joins only the lines strictly before the line under consideration, finds no
end, and no region is removed at all. -/
theorem claim_C4_counterexample :
    regionGuarded ["// Monitor save status changes", "getSaveState \x7d, []);"]
      "// Monitor save status changes" "\x7d, []);" "getSaveState" = none ∧
    guardScan ["// Monitor save status changes", "getSaveState \x7d, []);"] 0
      "\x7d, []);" "getSaveState" = none ∧
    strContains "getSaveState \x7d, []);" "\x7d, []);" = true ∧
    strContains
      (String.join
        (([("// Monitor save status changes" : String), "getSaveState \x7d, []);"].drop 0).take
          (1 + 1)))
      "getSaveState" = true :=
  ⟨rfl, rfl, rfl, rfl⟩

/-- Claim C4 (amended): the region with a fixed-text-plus-content-guard end
condition ends at the first line after the start containing the end literal
such that the guard appears in the concatenated text of the lines from the
start up to but excluding the line under consideration; in particular, of two
blocks sharing an identical closing line, only the one whose body before the
closing line contains the guard is removed. -/
theorem claim_C4_amended_guard_excludes_end_line (lines : List String) (i : Nat)
    (e g : String) (j : Nat) (h : guardScan lines i e g = some j) :
    i < j ∧ j < lines.length ∧ guardCondAt lines i e g j = true ∧
      ∀ k, i < k → k < j → guardCondAt lines i e g k = false := by
  obtain ⟨h1, h2, h3, h4⟩ :=
    guardScanAux_some lines i e g (lines.drop (i + 1)) (i + 1) j rfl h
  exact ⟨by omega, h2, h3, fun k hk1 hk2 => h4 k (by omega) hk2⟩

/-- Witness for the amended C4: a cleanup-style block whose body (line 1)
contains the guard; the scan stops at the closing line 2. -/
theorem claim_C4_witness :
    0 < 2 ∧
    2 < ([("// Cleanup effect (equivalent to componentWillUnmount)" : String),
          "track unmounted state", "\x7d, []);"]).length ∧
    guardCondAt ["// Cleanup effect (equivalent to componentWillUnmount)",
        "track unmounted state", "\x7d, []);"] 0 "\x7d, []);" "unmount" 2 = true ∧
    ∀ k, 0 < k → k < 2 →
      guardCondAt ["// Cleanup effect (equivalent to componentWillUnmount)",
          "track unmounted state", "\x7d, []);"] 0 "\x7d, []);" "unmount" k = false :=
  claim_C4_amended_guard_excludes_end_line
    ["// Cleanup effect (equivalent to componentWillUnmount)",
     "track unmounted state", "\x7d, []);"] 0 "\x7d, []);" "unmount" 2 rfl

/-- Helper: the running brace count gains one line's delta as the exclusive
upper bound advances past line `j`. -/
theorem braceSumBelow_succ (lines : List String) (i j : Nat) (hij : i ≤ j)
    (hj : j < lines.length) :
    braceSumBelow lines i (j + 1) =
      braceSumBelow lines i j + braceDelta (lines.getD j "") := by
  unfold braceSumBelow
  rw [show j + 1 - i = (j - i) + 1 by omega, List.take_succ, List.map_append,
    List.sum_append]
  congr 1
  rw [List.getElem?_drop, show i + (j - i) = j by omega,
    List.getElem?_eq_getElem hj, List.getD_eq_getElem lines "" hj]
  simp

/-- Helper: what a successful brace scan means, relative to the position it
reached with running count `c`.  The extra list argument is the suffix of
`lines` from `j`, and `c` is the count accumulated over lines `i..j-1`. -/
theorem braceScanAux_some (lines : List String) (i : Nat) :
    ∀ (rest : List String) (c : Int) (j r : Nat), rest = lines.drop j →
      i ≤ j → c = braceSumBelow lines i j →
      braceScanAux i rest c j = some r →
      j ≤ r ∧ r < lines.length ∧ braceSumTo lines i r = 0 ∧ i < r ∧
        ∀ k, j ≤ k → k < r → ¬(braceSumTo lines i k = 0 ∧ i < k) := by
  intro rest
  induction rest with
  | nil => intro c j r _ _ _ hsc; simp [braceScanAux] at hsc
  | cons l rest ih =>
    intro c j r hdrop hij hc hsc
    obtain ⟨hj, hhead, htail⟩ := drop_eq_cons_getD hdrop.symm
    have hsum : c + braceDelta l = braceSumTo lines i j := by
      have : braceSumTo lines i j = braceSumBelow lines i (j + 1) := rfl
      rw [this, braceSumBelow_succ lines i j hij hj, ← hc, hhead]
    simp only [braceScanAux] at hsc
    by_cases hcond : c + braceDelta l = 0 && decide (i < j)
    · rw [if_pos hcond] at hsc
      injection hsc with hr
      subst hr
      simp only [Bool.and_eq_true, decide_eq_true_eq] at hcond
      refine ⟨Nat.le_refl _, hj, by rw [← hsum]; exact_mod_cast hcond.1, hcond.2, ?_⟩
      intro k hk1 hk2
      omega
    · rw [if_neg hcond] at hsc
      obtain ⟨h1, h2, h3, h4, h5⟩ :=
        ih (c + braceDelta l) (j + 1) r htail.symm (by omega)
          (by rw [braceSumBelow_succ lines i j hij hj, ← hc, hhead]) hsc
      simp only [Bool.and_eq_true, decide_eq_true_eq, not_and] at hcond
      refine ⟨by omega, h2, h3, h4, ?_⟩
      intro k hk1 hk2
      rcases Nat.eq_or_lt_of_le hk1 with heq | hlt
      · subst heq
        intro hcontra
        rw [← hsum] at hcontra
        rcases hcontra with ⟨hz, hik⟩
        have := hcond (by exact_mod_cast hz)
        exact this hik
      · exact h5 k hlt hk2

/-- Claim C2: a successful balanced-delimiter end scan stops at the first line
strictly after the start line where the running per-line brace count — opening
braces minus closing braces, summed line by line from the start line — returns
to zero. -/
theorem claim_C2_balanced_brace_end (lines : List String) (i j : Nat)
    (h : braceScan lines i = some j) :
    i < j ∧ j < lines.length ∧ braceSumTo lines i j = 0 ∧
      ∀ k, i < k → k < j → braceSumTo lines i k ≠ 0 := by
  obtain ⟨h1, h2, h3, h4, h5⟩ :=
    braceScanAux_some lines i (lines.drop i) 0 i j rfl (Nat.le_refl i)
      (by unfold braceSumBelow; simp) h
  refine ⟨h4, h2, h3, ?_⟩
  intro k hik hkj hzero
  exact h5 k (by omega) hkj ⟨hzero, hik⟩

/-- Witness for C2 on the synthetic three-level-nested block: the scan stops
at line 6, the outer closing brace, not at an inner one. -/
theorem claim_C2_witness :
    braceScan nestedBlurLines 0 = some 6 ∧
    regionFieldBlur nestedBlurLines = some (0, 7) ∧
    (0 < 6 ∧ 6 < nestedBlurLines.length ∧ braceSumTo nestedBlurLines 0 6 = 0 ∧
      ∀ k, 0 < k → k < 6 → braceSumTo nestedBlurLines 0 k ≠ 0) :=
  ⟨rfl, rfl, claim_C2_balanced_brace_end nestedBlurLines 0 6 rfl⟩

/-- Helper: membership in an insertion step of the sort. -/
theorem mem_insertRange {x a : Nat × Nat} {l : List (Nat × Nat)} :
    x ∈ insertRange a l ↔ x = a ∨ x ∈ l := by
  induction l with
  | nil => simp [insertRange]
  | cons y rest ih =>
    unfold insertRange
    by_cases h : rangeLe a y
    · simp [h]
    · rw [if_neg h]
      simp only [List.mem_cons, ih]
      tauto

/-- Helper: sorting the ranges does not change which ranges are present. -/
theorem mem_sortRanges {x : Nat × Nat} {l : List (Nat × Nat)} :
    x ∈ sortRanges l ↔ x ∈ l := by
  induction l with
  | nil => simp [sortRanges]
  | cons y rest ih => simp [sortRanges, mem_insertRange, ih]

/-- Helper: coverage only depends on which ranges are present, so sorting
preserves it. -/
theorem covered_sortRanges (rs : List (Nat × Nat)) (k : Nat) :
    covered (sortRanges rs) k = covered rs k := by
  unfold covered
  rw [Bool.eq_iff_iff]
  simp only [List.any_eq_true]
  constructor
  · rintro ⟨x, hx, hpx⟩
    exact ⟨x, mem_sortRanges.mp hx, hpx⟩
  · rintro ⟨x, hx, hpx⟩
    exact ⟨x, mem_sortRanges.mpr hx, hpx⟩

/-- Helper: a successful coverage lookup yields a listed range covering `i`. -/
theorem find?_cover_some {rs : List (Nat × Nat)} {i : Nat} {r : Nat × Nat}
    (h : rs.find? (fun r => decide (r.1 ≤ i) && decide (i < r.2)) = some r) :
    r ∈ rs ∧ r.1 ≤ i ∧ i < r.2 := by
  have h1 := List.find?_some h
  have h2 := List.mem_of_find?_eq_some h
  simp only [Bool.and_eq_true, decide_eq_true_eq] at h1
  exact ⟨h2, h1.1, h1.2⟩

/-- Helper: a failed coverage lookup means line `i` is uncovered. -/
theorem find?_cover_none {rs : List (Nat × Nat)} {i : Nat}
    (h : rs.find? (fun r => decide (r.1 ≤ i) && decide (i < r.2)) = none) :
    covered rs i = false := by
  rw [List.find?_eq_none] at h
  unfold covered
  rw [List.any_eq_false]
  exact h

/-- Helper: the range-application loop retains exactly the uncovered lines
from position `i` on, in order and unchanged, for any range list and any
sufficient fuel. -/
theorem exciseAux_eq (lines : List String) (rs : List (Nat × Nat)) :
    ∀ (fuel i : Nat), lines.length - i ≤ fuel →
      exciseAux lines rs fuel i =
        ((List.range' i (lines.length - i)).filter (fun k => !covered rs k)).map
          (fun k => lines.getD k "") := by
  intro fuel
  induction fuel with
  | zero =>
    intro i hle
    rw [show lines.length - i = 0 by omega]
    simp [exciseAux]
  | succ fuel ih =>
    intro i hle
    by_cases hi : i < lines.length
    · cases hfind : rs.find? (fun r => decide (r.1 ≤ i) && decide (i < r.2)) with
      | none =>
        simp only [exciseAux, hfind]
        rw [if_pos hi]
        have hcov := find?_cover_none hfind
        rw [show lines.length - i = (lines.length - (i + 1)) + 1 by omega,
          List.range'_succ, List.filter_cons, hcov]
        simp only [Bool.not_false, if_pos]
        rw [List.map_cons]
        rw [ih (i + 1) (by omega)]
      | some r =>
        simp only [exciseAux, hfind]
        rw [if_pos hi]
        obtain ⟨hmem, hr1, hr2⟩ := find?_cover_some hfind
        rw [ih r.2 (by omega)]
        by_cases hre : r.2 ≤ lines.length
        · have hsplit : List.range' i (lines.length - i) =
              List.range' i (r.2 - i) ++ List.range' r.2 (lines.length - r.2) := by
            have hap := List.range'_append i (r.2 - i) (lines.length - r.2) 1
            rw [show i + 1 * (r.2 - i) = r.2 by omega] at hap
            rw [show lines.length - r.2 + (r.2 - i) = lines.length - i by omega] at hap
            exact hap.symm
          rw [hsplit, List.filter_append, List.map_append]
          have hnil : (List.range' i (r.2 - i)).filter (fun k => !covered rs k) = [] := by
            rw [List.filter_eq_nil_iff]
            intro k hk
            rw [List.mem_range'_1] at hk
            have hck : covered rs k = true := by
              unfold covered
              rw [List.any_eq_true]
              refine ⟨r, hmem, ?_⟩
              simp only [Bool.and_eq_true, decide_eq_true_eq]
              omega
            simp [hck]
          rw [hnil]
          simp
        · rw [show lines.length - r.2 = 0 by omega]
          have hnil : (List.range' i (lines.length - i)).filter
              (fun k => !covered rs k) = [] := by
            rw [List.filter_eq_nil_iff]
            intro k hk
            rw [List.mem_range'_1] at hk
            have hck : covered rs k = true := by
              unfold covered
              rw [List.any_eq_true]
              refine ⟨r, hmem, ?_⟩
              simp only [Bool.and_eq_true, decide_eq_true_eq]
              omega
            simp [hck]
          rw [hnil]
          simp
    · simp only [exciseAux]
      rw [if_neg hi, show lines.length - i = 0 by omega]
      simp

/-- Claim C1: for every line sequence and every list of located `[start, end)`
intervals, the range-application pass retains exactly the lines not covered by
any interval, in their original order and with their content unchanged —
overlapping intervals included, each covered line is dropped exactly once and
no uncovered line is dropped. -/
theorem claim_C1_retained_iff_uncovered (lines : List String)
    (ranges : List (Nat × Nat)) :
    applyRanges lines ranges =
      ((List.range lines.length).filter (fun k => !covered ranges k)).map
        (fun k => lines.getD k "") := by
  unfold applyRanges
  rw [exciseAux_eq lines (sortRanges ranges) lines.length 0 (by omega),
    List.range_eq_range', Nat.sub_zero]
  congr 1
  apply List.filter_congr
  intro k _
  rw [covered_sortRanges]
